import Mathlib

/-!
# RayTracerApp: camera, colour encoding and bitmap writer

A shallow embedding of `camera.h`, `color.h` and `bitmap.h`.

Conventions of the embedding:

* C++ `int` values are `Int`; `/` on `int` is `Int.tdiv` (truncation towards
  zero) and is undefined (`none`) for a zero divisor.  Unsigned fields are
  reduced modulo `2 ^ 32` where they are stored.
* `double` values are elements of a linearly ordered field `K` with a floor
  function (`ℚ` or `ℝ`); arithmetic is exact, rounding, infinities and NaN are
  not modelled.  The functions of `<cmath>` are the fields of a parameter
  `m : libm K`; concrete evaluations take `K = ℝ` with the real `sqrt`, `tan`
  and `pi`.
* bytes (`uint8_t`) are `Nat`, reduced modulo `256` where they are stored.
* a `for (int k = lo; k < hi; ++k)` loop is `forLoop lo hi body`.
* the random sampling of `get_ray` and of the materials is not reproduced:
  `renderSection` takes the colour of every sample as a parameter, and
  `ray_color` threads the state of the random generator through `scatter`.
* the order in which the worker threads of `render` finish is a parameter
  `finish_order`, a list of worker indices.
-/

set_option linter.unusedSectionVars false

namespace RayTracerApp

/-! ## Control flow -/

/-- The loop `for (int k = lo; k < hi; ++k) s = body(k, s);`: the body runs for
`k = lo, lo + 1, ..., hi - 1` in this order, and not at all when `hi ≤ lo`. -/
def forLoop {σ : Type} (lo hi : Int) (body : Int → σ → σ) (s : σ) : σ :=
  (List.range (hi - lo).toNat).foldl (fun acc (k : Nat) => body (lo + (k : Int)) acc) s

/-! ## camera::render, the row partition (camera.h:52-61) -/

/-- Source `const int num_threads = std::thread::hardware_concurrency();` (camera.h:52):
the unsigned 32-bit value reported by the query, converted to `int`. -/
def num_threads (hardware_concurrency : Nat) : Int :=
  if hardware_concurrency % 2 ^ 32 < 2 ^ 31 then ((hardware_concurrency % 2 ^ 32 : Nat) : Int)
  else ((hardware_concurrency % 2 ^ 32 : Nat) : Int) - 2 ^ 32

/-- Source `const int rows_per_thread = image_height / num_threads;` (camera.h:53):
`int` division, undefined for a zero divisor. -/
def rows_per_thread (image_height num_threads : Int) : Option Int :=
  if num_threads = 0 then none else some (Int.tdiv image_height num_threads)

/-- Source `int row_start = t * rows_per_thread;` (camera.h:60). -/
def row_start (rows_per_thread t : Int) : Int :=
  t * rows_per_thread

/-- Source `int row_end = (t == num_threads - 1) ? image_height : (t + 1) * rows_per_thread;`
(camera.h:61). -/
def row_end (image_height num_threads rows_per_thread t : Int) : Int :=
  if t = num_threads - 1 then image_height else (t + 1) * rows_per_thread

/-! ## vec3 and the math library (vec3.h, rtweekend.h, `<cmath>`) -/

/-- Modelled from the spec: `vec3`, the opaque 3-component real-valued algebra
of `vec3.h` (a header that is not part of the sources at hand), with components
`x()`, `y()`, `z()`. `point3` and `color` are aliases of it. -/
structure vec3 (K : Type) where
  x : K
  y : K
  z : K
deriving DecidableEq

/-- The functions of `<cmath>` and the constant `pi` of `rtweekend.h` used by the
camera: parameters of the embedding. -/
structure libm (K : Type) where
  sqrt : K → K
  tan : K → K
  pi : K

section VecOps

variable {K : Type} [LinearOrderedField K] [FloorRing K]

instance : Add (vec3 K) := ⟨fun a b => ⟨a.x + b.x, a.y + b.y, a.z + b.z⟩⟩
instance : Sub (vec3 K) := ⟨fun a b => ⟨a.x - b.x, a.y - b.y, a.z - b.z⟩⟩
instance : Neg (vec3 K) := ⟨fun a => ⟨-a.x, -a.y, -a.z⟩⟩
instance : Mul (vec3 K) := ⟨fun a b => ⟨a.x * b.x, a.y * b.y, a.z * b.z⟩⟩
instance : HMul K (vec3 K) (vec3 K) := ⟨fun t a => ⟨t * a.x, t * a.y, t * a.z⟩⟩
instance : HMul (vec3 K) K (vec3 K) := ⟨fun a t => ⟨t * a.x, t * a.y, t * a.z⟩⟩
instance : HDiv (vec3 K) K (vec3 K) := ⟨fun a t => ⟨(1 / t) * a.x, (1 / t) * a.y, (1 / t) * a.z⟩⟩

/-- Modelled from the spec: `vec3::length_squared` of `vec3.h`. -/
def vec3.length_squared (v : vec3 K) : K :=
  v.x * v.x + v.y * v.y + v.z * v.z

/-- Modelled from the spec: `vec3::length` of `vec3.h`. -/
def vec3.length (m : libm K) (v : vec3 K) : K :=
  m.sqrt v.length_squared

/-- Modelled from the spec: `unit_vector` ("normalize") of `vec3.h`, the vector
divided by its length. -/
def unit_vector (m : libm K) (v : vec3 K) : vec3 K :=
  v / vec3.length m v

/-- Modelled from the spec: `cross` of `vec3.h`. -/
def cross (u v : vec3 K) : vec3 K :=
  ⟨u.y * v.z - u.z * v.y, u.z * v.x - u.x * v.z, u.x * v.y - u.y * v.x⟩

/-- Modelled from the spec: `degrees_to_radians` of `rtweekend.h`. -/
def degrees_to_radians (m : libm K) (degrees : K) : K :=
  degrees * m.pi / 180

/-- The conversion `int(x)` of a `double`: truncation towards zero.  (The C++
conversion is defined only while the truncated value fits an `int`.) -/
def double_to_int (x : K) : Int :=
  if 0 ≤ x then ⌊x⌋ else ⌈x⌉

/-- The conversion of an `int` to `uint8_t` done by `push_back`. -/
def to_uint8 (v : Int) : Nat :=
  (v % 256).toNat

/-! ## color.h -/

/-- Source `linear_to_gamma` (color.h:11-17). -/
def linear_to_gamma (m : libm K) (linear_component : K) : K :=
  if 0 < linear_component then m.sqrt linear_component else 0

/-- Modelled from the spec: `interval` of `interval.h`, a closed range of reals. -/
structure interval (K : Type) where
  min : K
  max : K

/-- Modelled from the spec: `interval::clamp` of `interval.h`, the utility that
clamps a component to the range. -/
def interval.clamp (I : interval K) (x : K) : K :=
  if x < I.min then I.min else if I.max < x then I.max else x

/-- Source `static const interval intensity(0.000, 0.999);` (color.h:29). -/
def intensity : interval K :=
  ⟨0, 999 / 1000⟩

/-- Source `write_color` (color.h:19-37): the buffer `sect` after the three
`push_back`s. -/
def write_color (m : libm K) (pixel_color : vec3 K) (sect : List Nat) : List Nat :=
  let r := pixel_color.x
  let g := pixel_color.y
  let b := pixel_color.z
  let r := linear_to_gamma m r
  let g := linear_to_gamma m g
  let b := linear_to_gamma m b
  let rbyte := double_to_int (256 * intensity.clamp r)
  let gbyte := double_to_int (256 * intensity.clamp g)
  let bbyte := double_to_int (256 * intensity.clamp b)
  ((sect ++ [to_uint8 bbyte]) ++ [to_uint8 gbyte]) ++ [to_uint8 rbyte]

/-- The encoding of one component as the specification words it:
`trunc(256 * clamp(c > 0 ? sqrt(c) : 0, 0.000, 0.999))`. -/
def enc (m : libm K) (c : K) : Int :=
  double_to_int (256 * (Max.max 0 (Min.min (if 0 < c then m.sqrt c else 0) (999 / 1000))))

end VecOps

/-! ## bitmap.h -/

/-- Source `struct BMPHeader` (bitmap.h:13-19). -/
structure BMPHeader where
  bfType : Nat := 0x4D42
  bfSize : Nat := 0
  bfReserved1 : Nat := 0
  bfReserved2 : Nat := 0
  bfOffBits : Nat := 54

/-- Source `struct DIBHeader` (bitmap.h:21-33). -/
structure DIBHeader where
  biSize : Nat := 40
  biWidth : Int := 0
  biHeight : Int := 0
  biPlanes : Nat := 1
  biBitCount : Nat := 24
  biCompression : Nat := 0
  biSizeImage : Nat := 0
  biXPelsPerMeter : Int := 2835
  biYPelsPerMeter : Int := 2835
  biClrUsed : Nat := 0
  biClrImportant : Nat := 0

/-- The `n` bytes of an unsigned field in memory, least significant first. -/
def le_bytes (n : Nat) (v : Nat) : List Nat :=
  (List.range n).map (fun (k : Nat) => v / 256 ^ k % 256)

/-- The value of an `int` stored in (or converted to) a 32-bit unsigned field. -/
def to_uint32 (v : Int) : Nat :=
  (v % 2 ^ 32).toNat

/-- The 14 bytes of a packed `BMPHeader`, as `file.write` emits them. -/
def BMPHeader.bytes (h : BMPHeader) : List Nat :=
  le_bytes 2 h.bfType ++ le_bytes 4 h.bfSize ++ le_bytes 2 h.bfReserved1 ++
    le_bytes 2 h.bfReserved2 ++ le_bytes 4 h.bfOffBits

/-- The 40 bytes of a packed `DIBHeader`, as `file.write` emits them. -/
def DIBHeader.bytes (h : DIBHeader) : List Nat :=
  le_bytes 4 h.biSize ++ le_bytes 4 (to_uint32 h.biWidth) ++ le_bytes 4 (to_uint32 h.biHeight) ++
    le_bytes 2 h.biPlanes ++ le_bytes 2 h.biBitCount ++ le_bytes 4 h.biCompression ++
    le_bytes 4 h.biSizeImage ++ le_bytes 4 (to_uint32 h.biXPelsPerMeter) ++
    le_bytes 4 (to_uint32 h.biYPelsPerMeter) ++ le_bytes 4 h.biClrUsed ++
    le_bytes 4 h.biClrImportant

/-- Source `file.write(&buffer[start], count)`: the `count` bytes of `buffer` from index
`start` on, appended to the file. -/
def file_write (file buffer : List Nat) (start : Nat) (count : Int) : List Nat :=
  file ++ (buffer.drop start).take count.toNat

/-- What `saveBMP` leaves behind: the two headers it filled in and the bytes it
wrote to the file. -/
structure BMPFile where
  bmpHeader : BMPHeader
  dibHeader : DIBHeader
  written : List Nat

/-- Source `Bitmap::saveBMP` (bitmap.h:38-71); `opened` tells whether the output file
could be opened. -/
def saveBMP (opened : Bool) (pixelBuffer : List Nat) (width height : Int) :
    Except String BMPFile :=
  let bytesPerPixel : Int := 3
  let rowSize : Int := (Int.tdiv (width * bytesPerPixel + 3) 4) * 4
  let paddingSize : Int := rowSize - (width * bytesPerPixel)
  let imageSize : Int := rowSize * height
  let bmpHeader : BMPHeader := {}
  let dibHeader : DIBHeader := {}
  let dibHeader := { dibHeader with biWidth := width }
  let dibHeader := { dibHeader with biHeight := -height }
  let dibHeader := { dibHeader with biSizeImage := to_uint32 imageSize }
  let bmpHeader := { bmpHeader with bfSize := (bmpHeader.bfOffBits + dibHeader.biSizeImage) % 2 ^ 32 }
  if !opened then
    Except.error "Failed to open file for writing."
  else
    let file : List Nat := []
    let file := file ++ bmpHeader.bytes
    let file := file ++ dibHeader.bytes
    let padding : List Nat := [0, 0, 0]
    let file := forLoop 0 height (fun y file =>
      let rowStart : Nat := (y * width * bytesPerPixel).toNat
      let file := file_write file pixelBuffer rowStart (width * bytesPerPixel)
      file_write file padding 0 paddingSize) file
    Except.ok { bmpHeader := bmpHeader, dibHeader := dibHeader, written := file }

/-! ## camera.h -/

/-- Source `class camera` (camera.h:14-95): the public parameters, the pixel buffer and
the private state derived by `initialize`. -/
structure camera (K : Type) where
  aspect_ratio : K
  image_width : Int
  samples_per_pixel : Int
  max_depth : Int
  vfov : K
  lookfrom : vec3 K
  lookat : vec3 K
  vup : vec3 K
  defocus_angle : K
  focus_dist : K
  pixelBuffer : List Nat
  image_height : Int
  pixel_samples_scale : K
  center : vec3 K
  pixel00_loc : vec3 K
  pixel_delta_u : vec3 K
  pixel_delta_v : vec3 K
  u : vec3 K
  v : vec3 K
  w : vec3 K
  defocus_disk_u : vec3 K
  defocus_disk_v : vec3 K

section Camera

variable {K : Type} [LinearOrderedField K] [FloorRing K]

/-- A freshly constructed camera: the default member initialisers of
camera.h:16-29, with the given width, aspect ratio, sample count and depth set
afterwards.  The private members, which C++ leaves uninitialised until
`initialize` runs, are zero. -/
def camera.fresh (image_width : Int) (aspect_ratio : K) (samples_per_pixel max_depth : Int) :
    camera K :=
  { aspect_ratio := aspect_ratio, image_width := image_width,
    samples_per_pixel := samples_per_pixel, max_depth := max_depth,
    vfov := 90, lookfrom := ⟨0, 0, 0⟩, lookat := ⟨0, 0, -1⟩, vup := ⟨0, 1, 0⟩,
    defocus_angle := 0, focus_dist := 10, pixelBuffer := [],
    image_height := 0, pixel_samples_scale := 0, center := ⟨0, 0, 0⟩,
    pixel00_loc := ⟨0, 0, 0⟩, pixel_delta_u := ⟨0, 0, 0⟩, pixel_delta_v := ⟨0, 0, 0⟩,
    u := ⟨0, 0, 0⟩, v := ⟨0, 0, 0⟩, w := ⟨0, 0, 0⟩,
    defocus_disk_u := ⟨0, 0, 0⟩, defocus_disk_v := ⟨0, 0, 0⟩ }

/-- Source `camera::initialize` (camera.h:97-132). -/
def camera_init (m : libm K) (c : camera K) : camera K :=
  let image_height : Int := double_to_int ((c.image_width : K) / c.aspect_ratio)
  let image_height : Int := if image_height < 1 then 1 else image_height
  let pixel_samples_scale : K := 1 / (c.samples_per_pixel : K)
  let center := c.lookfrom
  let theta := degrees_to_radians m c.vfov
  let h := m.tan (theta / 2)
  let viewport_height := 2 * h * c.focus_dist
  let viewport_width := viewport_height * ((c.image_width : K) / (image_height : K))
  let w := unit_vector m (c.lookfrom - c.lookat)
  let u := unit_vector m (cross c.vup w)
  let v := cross w u
  let viewport_u : vec3 K := viewport_width * u
  let viewport_v : vec3 K := viewport_height * (-v)
  let pixel_delta_u : vec3 K := viewport_u / (c.image_width : K)
  let pixel_delta_v : vec3 K := viewport_v / (image_height : K)
  let viewport_upper_left : vec3 K :=
    center - (c.focus_dist * w) - viewport_u / (2 : K) - viewport_v / (2 : K)
  let pixel00_loc : vec3 K := viewport_upper_left + (1 / 2 : K) * (pixel_delta_u + pixel_delta_v)
  let defocus_radius := c.focus_dist * m.tan (degrees_to_radians m (c.defocus_angle / 2))
  { c with
    image_height := image_height,
    pixel_samples_scale := pixel_samples_scale,
    center := center,
    w := w, u := u, v := v,
    pixel_delta_u := pixel_delta_u,
    pixel_delta_v := pixel_delta_v,
    pixel00_loc := pixel00_loc,
    defocus_disk_u := u * defocus_radius,
    defocus_disk_v := v * defocus_radius }

/-- Source `camera::renderSection` (camera.h:31-45).  `sample i j s` is the colour
`ray_color(get_ray(i, j), max_depth, world)` obtained for sample `s` of pixel
`(i, j)`. -/
def renderSection (m : libm K) (c : camera K) (sample : Int → Int → Int → vec3 K)
    (start stop : Int) : List Nat :=
  let sectionPixels : List Nat := []
  forLoop start stop (fun j sectionPixels =>
    forLoop 0 c.image_width (fun i sectionPixels =>
      let pixel_color : vec3 K := ⟨0, 0, 0⟩
      let pixel_color := forLoop 0 c.samples_per_pixel
        (fun s pixel_color => pixel_color + sample i j s) pixel_color
      write_color m (c.pixel_samples_scale * pixel_color) sectionPixels) sectionPixels)
    sectionPixels

/-- The workers of `render` (camera.h:56-70): `sections` starts as `num_threads`
empty buffers; worker `t` stores the result of its `renderSection` call in
`sections[t]` when it finishes.  `finish_order` lists the workers in the order
in which they finish. -/
def run_workers (num_threads : Int) (work : Int → List Nat) (finish_order : List Int) :
    List (List Nat) :=
  finish_order.foldl (fun sections t => sections.set t.toNat (work t))
    (List.replicate num_threads.toNat [])

/-- The merge loop of `render` (camera.h:73-75): every section is inserted at
the end of `pixelBuffer`, in the order of `sections`. -/
def merge_sections (pixelBuffer : List Nat) (sections : List (List Nat)) : List Nat :=
  sections.foldl (fun pixelBuffer sect => pixelBuffer ++ sect) pixelBuffer

/-- Source `camera::render` (camera.h:47-84).  The result is `none` where the C++
program has no defined behaviour (the division by `num_threads = 0`) or cannot
allocate `sections` (a negative `num_threads`); otherwise it is the camera after
the call together with the outcome of `saveBMP`. -/
def render (m : libm K) (c : camera K) (hardware_concurrency : Nat) (finish_order : List Int)
    (sample : Int → Int → Int → vec3 K) (opened : Bool) :
    Option (camera K × Except String BMPFile) :=
  let c := camera_init m c
  let num_threads := num_threads hardware_concurrency
  match rows_per_thread c.image_height num_threads with
  | none => none
  | some rows_per_thread =>
    if num_threads < 0 then none
    else
      let sections := run_workers num_threads
        (fun t => renderSection m c sample (row_start rows_per_thread t)
          (row_end c.image_height num_threads rows_per_thread t)) finish_order
      let c := { c with pixelBuffer := merge_sections c.pixelBuffer sections }
      some (c, saveBMP opened c.pixelBuffer c.image_width c.image_height)

end Camera

/-! ## camera::ray_color (camera.h:161-179) -/

/-- Modelled from the spec: `ray` of `ray.h`, an origin point and a direction
vector (not required to be normalised). -/
structure ray (K : Type) where
  origin : vec3 K
  direction : vec3 K

/-- Modelled from the spec: `hit_record` of `hittable.h`: intersection point,
surface normal, ray parameter `t` and a reference `mat` to the material. -/
structure hit_record (K M : Type) where
  p : vec3 K
  normal : vec3 K
  mat : M
  t : K

/-- Modelled from the spec: the geometry and material capabilities of
`hittable.h` and `material.h`.  `hit r t_min` is `world.hit(r, interval(t_min,
infinity), rec)`, the record of the nearest hit or `none`; `scatter mat r rec g`
is `mat->scatter(r, rec, attenuation, scattered)` run with the random generator
in state `g`: the attenuation and the scattered ray, or `none` when the ray is
absorbed, and the state of the generator afterwards. -/
structure hittable (K M G : Type) where
  hit : ray K → K → Option (hit_record K M)
  scatter : M → ray K → hit_record K M → G → Option (vec3 K × ray K) × G

section RayColor

variable {K : Type} [LinearOrderedField K] [FloorRing K] {M G : Type}

/-- Source `camera::ray_color` (camera.h:161-179).  The result is the colour, the state
of the random generator after the call and, as a counter added to the
embedding, the number of `world.hit` queries made. -/
def ray_color (m : libm K) (world : hittable K M G) (r : ray K) (depth : Int) (g : G) :
    vec3 K × G × Nat :=
  if depth ≤ 0 then
    (⟨0, 0, 0⟩, g, 0)
  else
    match world.hit r (1 / 1000) with
    | some rec =>
      match world.scatter rec.mat r rec g with
      | (some (attenuation, scattered), g') =>
        let rest := ray_color m world scattered (depth - 1) g'
        (attenuation * rest.1, rest.2.1, rest.2.2 + 1)
      | (none, g') => (⟨0, 0, 0⟩, g', 1)
    | none =>
      let unit_direction := unit_vector m r.direction
      let a := (1 / 2 : K) * (unit_direction.y + 1)
      ((1 - a) * (⟨1, 1, 1⟩ : vec3 K) + a * (⟨1 / 2, 7 / 10, 1⟩ : vec3 K), g, 1)
termination_by depth.toNat
decreasing_by omega

/-- The background gradient as the specification words it:
`(1-a)*(1,1,1) + a*(0.5,0.7,1.0)` with `a = 0.5*(normalize(d).y + 1)`. -/
def background_gradient (m : libm K) (d : vec3 K) : vec3 K :=
  let a := (1 / 2 : K) * ((unit_vector m d).y + 1)
  (1 - a) * (⟨1, 1, 1⟩ : vec3 K) + a * (⟨1 / 2, 7 / 10, 1⟩ : vec3 K)

/-- The iterative attenuation-product evaluation as the specification words it:
follow the scatter chain, multiplying the attenuations into `throughput`; finish
with zero radiance when the depth counter reaches 0 or a material absorbs, and
with `throughput` times the background gradient of the current ray on a miss.
`queries` counts the geometry queries made so far. -/
def attenuation_product (m : libm K) (world : hittable K M G) :
    Nat → vec3 K → ray K → G → Nat → vec3 K × G × Nat
  | 0, _, _, g, queries => (⟨0, 0, 0⟩, g, queries)
  | counter + 1, throughput, r, g, queries =>
    match world.hit r (1 / 1000) with
    | some rec =>
      match world.scatter rec.mat r rec g with
      | (some (attenuation, scattered), g') =>
        attenuation_product m world counter (throughput * attenuation) scattered g' (queries + 1)
      | (none, g') => (⟨0, 0, 0⟩, g', queries + 1)
    | none => (throughput * background_gradient m r.direction, g, queries + 1)

/-- The iterative evaluation started as the specification has it: depth counter
`max(depth, 0)`, throughput `(1, 1, 1)`, no query made yet. -/
def ray_color_iterative (m : libm K) (world : hittable K M G) (r : ray K) (depth : Int) (g : G) :
    vec3 K × G × Nat :=
  attenuation_product m world depth.toNat ⟨1, 1, 1⟩ r g 0

/-- A scene with no geometry: every `hit` query misses. -/
def empty_world : hittable K Unit Unit :=
  { hit := fun _ _ => none, scatter := fun _ _ _ g => (none, g) }

end RayColor

section Derived

variable {K : Type} [LinearOrderedField K] [FloorRing K]

/-- The three bytes `renderSection` appends for pixel `(i, j)`: the body of its
inner loop (camera.h:36-41) run on an empty buffer. -/
def pixel_bytes (m : libm K) (c : camera K) (sample : Int → Int → Int → vec3 K)
    (i j : Int) : List Nat :=
  write_color m (c.pixel_samples_scale * forLoop 0 c.samples_per_pixel
    (fun s pixel_color => pixel_color + sample i j s) (⟨0, 0, 0⟩ : vec3 K)) []

/-- The bytes `renderSection` appends for row `j`, pixel after pixel. -/
def row_bytes (m : libm K) (c : camera K) (sample : Int → Int → Int → vec3 K)
    (j : Int) : List Nat :=
  (List.range c.image_width.toNat).flatMap (fun (i : Nat) => pixel_bytes m c sample (i : Int) j)

end Derived

/-! ## Theorems -/

theorem rows_per_thread_pos_divisor (H N : Int) (hH : 0 ≤ H) (hN : 1 ≤ N) :
    rows_per_thread H N = some (H / N) := by
  unfold rows_per_thread
  rw [if_neg (by omega), Int.tdiv_eq_ediv hH (by omega)]

theorem chunk_bounds (H N : Int) (hH : 0 ≤ H) (hN : 1 ≤ N) :
    0 ≤ H / N ∧ (N - 1) * (H / N) ≤ H := by
  have hq : 0 ≤ H / N := Int.ediv_nonneg hH (by omega)
  have h1 : N * (H / N) ≤ H := Int.mul_ediv_self_le (by omega)
  refine ⟨hq, ?_⟩
  nlinarith

/-- C1: for every image height `H ≥ 1` and worker count `N ≥ 1` the row ranges
`[row_start t, row_end t)`, `t = 0 .. N-1`, computed by `render` are contiguous
(the first starts at `0`, each ends where the next starts, the last ends at `H`),
each is well formed, every row of `[0, H)` lies in exactly one of them and no
range contains a row outside `[0, H)`. -/
theorem render_row_ranges_partition (H N : Int) (hH : 1 ≤ H) (hN : 1 ≤ N) :
    ∃ q, rows_per_thread H N = some q ∧
      row_start q 0 = 0 ∧
      row_end H N q (N - 1) = H ∧
      (∀ t, 0 ≤ t → t + 1 < N → row_end H N q t = row_start q (t + 1)) ∧
      (∀ t, 0 ≤ t → t < N → row_start q t ≤ row_end H N q t) ∧
      (∀ r, 0 ≤ r → r < H →
        ∃! t, (0 ≤ t ∧ t < N) ∧ row_start q t ≤ r ∧ r < row_end H N q t) ∧
      (∀ t r, 0 ≤ t → t < N → row_start q t ≤ r → r < row_end H N q t →
        0 ≤ r ∧ r < H) := by
  obtain ⟨hq, hlast⟩ := chunk_bounds H N (by omega) hN
  refine ⟨H / N, rows_per_thread_pos_divisor H N (by omega) hN, ?_, ?_, ?_, ?_, ?_, ?_⟩
  · simp [row_start]
  · simp [row_end]
  · intro t _ ht
    simp only [row_end, row_start]
    rw [if_neg (by omega)]
  · intro t ht0 htN
    simp only [row_end, row_start]
    split_ifs with h
    · subst h; exact hlast
    · nlinarith
  · intro r hr0 hrH
    have key : ∀ t₁ t₂, 0 ≤ t₁ → t₁ < t₂ → t₂ < N →
        row_start (H / N) t₁ ≤ r → r < row_end H N (H / N) t₁ →
        row_start (H / N) t₂ ≤ r → False := by
      intro t₁ t₂ h0 h12 h2N _ he hs
      simp only [row_end, row_start] at he hs
      rw [if_neg (by omega)] at he
      have : (t₁ + 1) * (H / N) ≤ t₂ * (H / N) :=
        mul_le_mul_of_nonneg_right (by omega) hq
      omega
    by_cases hlt : r < (N - 1) * (H / N)
    · have hqpos : 0 < H / N := by
        rcases hq.lt_or_eq with h | h
        · exact h
        · rw [← h] at hlt; simp at hlt; omega
      have hd1 : (r / (H / N)) * (H / N) ≤ r := Int.ediv_mul_le r (by omega)
      have hd2 : r < (r / (H / N) + 1) * (H / N) := by
        have := Int.lt_ediv_add_one_mul_self r hqpos
        linarith
      have hd0 : 0 ≤ r / (H / N) := Int.ediv_nonneg hr0 hq
      have hdN : r / (H / N) < N - 1 := by
        by_contra hge
        have : (N - 1) * (H / N) ≤ (r / (H / N)) * (H / N) :=
          mul_le_mul_of_nonneg_right (by omega) hq
        omega
      refine ⟨r / (H / N), ⟨⟨hd0, by omega⟩, ?_, ?_⟩, ?_⟩
      · simpa [row_start] using hd1
      · simp only [row_end]; rw [if_neg (by omega)]; exact hd2
      · rintro t ⟨⟨ht0, htN⟩, hs, he⟩
        rcases lt_trichotomy t (r / (H / N)) with h | h | h
        · exact (key t _ ht0 h (by omega) hs he (by simpa [row_start] using hd1)).elim
        · exact h
        · have he2 : r < row_end H N (H / N) (r / (H / N)) := by
            simp only [row_end]; rw [if_neg (by omega)]; exact hd2
          exact (key _ t hd0 h htN (by simpa [row_start] using hd1) he2 hs).elim
    · have hs : row_start (H / N) (N - 1) ≤ r := by
        simp only [row_start]; omega
      have he : r < row_end H N (H / N) (N - 1) := by
        simp only [row_end]; simpa using hrH
      refine ⟨N - 1, ⟨⟨by omega, by omega⟩, hs, he⟩, ?_⟩
      rintro t ⟨⟨ht0, htN⟩, hs', he'⟩
      by_contra hne
      exact key t (N - 1) ht0 (by omega) (by omega) hs' he' hs
  · intro t r ht0 htN hs he
    simp only [row_end, row_start] at hs he
    have h0 : 0 ≤ t * (H / N) := mul_nonneg ht0 hq
    refine ⟨by omega, ?_⟩
    split_ifs at he with h
    · exact he
    · have : (t + 1) * (H / N) ≤ (N - 1) * (H / N) :=
        mul_le_mul_of_nonneg_right (by omega) hq
      omega

theorem render_row_ranges_partition_witness :
    ∃ q, rows_per_thread 7 3 = some q ∧
      row_start q 0 = 0 ∧
      row_end 7 3 q (3 - 1) = 7 ∧
      (∀ t, 0 ≤ t → t + 1 < 3 → row_end 7 3 q t = row_start q (t + 1)) ∧
      (∀ t, 0 ≤ t → t < 3 → row_start q t ≤ row_end 7 3 q t) ∧
      (∀ r, 0 ≤ r → r < 7 →
        ∃! t, (0 ≤ t ∧ t < 3) ∧ row_start q t ≤ r ∧ r < row_end 7 3 q t) ∧
      (∀ t r, 0 ≤ t → t < 3 → row_start q t ≤ r → r < row_end 7 3 q t →
        0 ≤ r ∧ r < 7) :=
  render_row_ranges_partition 7 3 (by decide) (by decide)

/-! ### Loops and buffers -/

theorem forLoop_append {α : Type} (lo hi : Int) (body : Int → List α → List α)
    (f : Int → List α) (hbody : ∀ k s, body k s = s ++ f k) (s : List α) :
    forLoop lo hi body s = s ++ (List.range (hi - lo).toNat).flatMap (fun (k : Nat) => f (lo + (k : Int))) := by
  unfold forLoop
  induction (hi - lo).toNat with
  | zero => simp
  | succ n ih =>
    rw [List.range_succ, List.foldl_append, ih, List.flatMap_append]
    simp [hbody, List.append_assoc]

theorem flatMap_range_add {α : Type} (f : Nat → List α) (a b : Nat) :
    (List.range (a + b)).flatMap f =
      (List.range a).flatMap f ++ (List.range b).flatMap (fun k => f (a + k)) := by
  induction b with
  | zero => simp
  | succ n ih =>
    rw [← Nat.add_assoc, List.range_succ, List.flatMap_append, ih, List.range_succ,
      List.flatMap_append]
    simp [List.append_assoc]

theorem length_flatMap_range {α : Type} (f : Nat → List α) (L n : Nat)
    (hlen : ∀ a, a < n → (f a).length = L) :
    ((List.range n).flatMap f).length = n * L := by
  induction n with
  | zero => simp
  | succ n ih =>
    rw [List.range_succ, List.flatMap_append, List.length_append,
      ih (fun a ha => hlen a (by omega))]
    simp [hlen n (by omega)]
    ring

theorem getElem?_flatMap_range {α : Type} (f : Nat → List α) (L n : Nat)
    (hlen : ∀ a, a < n → (f a).length = L) (a k : Nat) (ha : a < n) (hk : k < L) :
    ((List.range n).flatMap f)[a * L + k]? = (f a)[k]? := by
  induction n with
  | zero => omega
  | succ n ih =>
    have hl := length_flatMap_range f L n (fun a ha => hlen a (by omega))
    rw [List.range_succ, List.flatMap_append]
    by_cases han : a < n
    · have hlt : a * L + k < ((List.range n).flatMap f).length := by
        rw [hl]
        calc a * L + k < a * L + L := by omega
          _ = (a + 1) * L := by ring
          _ ≤ n * L := Nat.mul_le_mul_right L han
      rw [List.getElem?_append_left hlt]
      exact ih (fun a ha => hlen a (by omega)) han
    · have hE : a = n := by omega
      subst hE
      rw [List.getElem?_append_right (by rw [hl]; omega), hl]
      simp

/-! ### write_color and renderSection -/

section Render

variable {K : Type} [LinearOrderedField K] [FloorRing K]

theorem write_color_append (m : libm K) (p : vec3 K) (sect : List Nat) :
    write_color m p sect = sect ++ write_color m p [] := by
  simp [write_color]

theorem write_color_length (m : libm K) (p : vec3 K) :
    (write_color m p []).length = 3 := by
  simp [write_color]

theorem pixel_bytes_length (m : libm K) (c : camera K) (sample : Int → Int → Int → vec3 K)
    (i j : Int) : (pixel_bytes m c sample i j).length = 3 :=
  write_color_length m _

theorem row_bytes_length (m : libm K) (c : camera K) (sample : Int → Int → Int → vec3 K)
    (j : Int) : (row_bytes m c sample j).length = c.image_width.toNat * 3 :=
  length_flatMap_range _ 3 _ (fun _ _ => pixel_bytes_length m c sample _ j)

theorem renderSection_eq (m : libm K) (c : camera K) (sample : Int → Int → Int → vec3 K)
    (start stop : Int) :
    renderSection m c sample start stop =
      (List.range (stop - start).toNat).flatMap (fun (k : Nat) => row_bytes m c sample (start + (k : Int))) := by
  unfold renderSection
  simp only []
  rw [forLoop_append start stop _ (fun j => row_bytes m c sample j)]
  · simp
  · intro j s
    rw [forLoop_append 0 c.image_width _ (fun i => pixel_bytes m c sample i j)]
    · simp [row_bytes]
    · intro i s
      rw [write_color_append]
      rfl

theorem renderSection_append (m : libm K) (c : camera K) (sample : Int → Int → Int → vec3 K)
    (a b d : Int) (hab : a ≤ b) (hbd : b ≤ d) :
    renderSection m c sample a b ++ renderSection m c sample b d =
      renderSection m c sample a d := by
  rw [renderSection_eq, renderSection_eq, renderSection_eq]
  have h : (d - a).toNat = (b - a).toNat + (d - b).toNat := by omega
  rw [h, flatMap_range_add]
  congr 1
  apply congrArg
  funext k
  congr 1
  have : ((b - a).toNat : Int) = b - a := Int.toNat_of_nonneg (by omega)
  push_cast
  omega

theorem renderSection_length (m : libm K) (c : camera K) (sample : Int → Int → Int → vec3 K)
    (start stop : Int) :
    (renderSection m c sample start stop).length =
      (stop - start).toNat * (c.image_width.toNat * 3) := by
  rw [renderSection_eq]
  exact length_flatMap_range _ _ _ (fun _ _ => row_bytes_length m c sample _)

end Render

/-! ### Workers and the merge step -/

theorem run_workers_fold (work : Int → List Nat) (order : List Int) (n : Nat)
    (L : List (List Nat)) (hL : L.length = n)
    (hrange : ∀ t ∈ order, 0 ≤ t ∧ t < (n : Int)) :
    (order.foldl (fun sections t => sections.set t.toNat (work t)) L).length = n ∧
      ∀ i, i < n →
        (order.foldl (fun sections t => sections.set t.toNat (work t)) L)[i]? =
          if (i : Int) ∈ order then some (work i) else L[i]? := by
  induction order generalizing L with
  | nil => simp [hL]
  | cons t rest ih =>
    have ht := hrange t (List.mem_cons_self _ _)
    have hrest : ∀ u ∈ rest, 0 ≤ u ∧ u < (n : Int) :=
      fun u hu => hrange u (List.mem_cons_of_mem _ hu)
    have hlen : (L.set t.toNat (work t)).length = n := by rw [List.length_set, hL]
    obtain ⟨h1, h2⟩ := ih (L.set t.toNat (work t)) hlen hrest
    refine ⟨by simpa using h1, ?_⟩
    intro i hi
    rw [List.foldl_cons, h2 i hi]
    by_cases hmem : (i : Int) ∈ rest
    · simp [hmem]
    · rw [if_neg hmem, List.getElem?_set]
      by_cases hti : t.toNat = i
      · have hit : (i : Int) = t := by omega
        rw [if_pos hti, if_pos (by omega)]
        simp [hit]
      · have hit : ¬ (i : Int) = t := by omega
        rw [if_neg hti]
        simp [hit, hmem]

theorem run_workers_perm (N : Int) (work : Int → List Nat) (finish_order : List Int)
    (hperm : finish_order.Perm ((List.range N.toNat).map (fun (t : Nat) => (t : Int)))) :
    run_workers N work finish_order =
      (List.range N.toNat).map (fun (t : Nat) => work (t : Int)) := by
  have hmem : ∀ t, t ∈ finish_order ↔ ∃ k, k < N.toNat ∧ (k : Int) = t := by
    intro t
    rw [hperm.mem_iff]
    simp
  have hrange : ∀ t ∈ finish_order, 0 ≤ t ∧ t < (N.toNat : Int) := by
    intro t ht
    obtain ⟨k, hk, rfl⟩ := (hmem t).1 ht
    omega
  obtain ⟨h1, h2⟩ := run_workers_fold work finish_order N.toNat
    (List.replicate N.toNat []) (by simp) hrange
  unfold run_workers
  apply List.ext_getElem?
  intro i
  by_cases hi : i < N.toNat
  · rw [h2 i hi, if_pos ((hmem _).2 ⟨i, hi, rfl⟩), List.getElem?_map,
      List.getElem?_range hi]
    rfl
  · rw [List.getElem?_eq_none (by omega), List.getElem?_eq_none (by simp; omega)]

theorem merge_sections_eq (pixelBuffer : List Nat) (sections : List (List Nat)) :
    merge_sections pixelBuffer sections = pixelBuffer ++ sections.flatten := by
  unfold merge_sections
  induction sections generalizing pixelBuffer with
  | nil => simp
  | cons a rest ih => rw [List.foldl_cons, ih, List.flatten_cons, List.append_assoc]

section Chunks

variable {K : Type} [LinearOrderedField K] [FloorRing K]

theorem chunks_upto (m : libm K) (c : camera K) (sample : Int → Int → Int → vec3 K)
    (H N q : Int) (hq : 0 ≤ q) (k : Nat) (hk : (k : Int) ≤ N - 1) :
    ((List.range k).map (fun (t : Nat) =>
        renderSection m c sample (row_start q t) (row_end H N q t))).flatten =
      renderSection m c sample 0 ((k : Int) * q) := by
  induction k with
  | zero => simp [renderSection_eq]
  | succ n ih =>
    rw [List.range_succ, List.map_append, List.flatten_append, ih (by push_cast at hk; omega)]
    simp only [List.map_cons, List.map_nil, List.flatten_cons, List.flatten_nil,
      List.append_nil, row_start, row_end]
    rw [if_neg (by push_cast at hk; omega)]
    have h0 : 0 ≤ (n : Int) * q := mul_nonneg (by omega) hq
    have h1 : (n : Int) * q ≤ ((n : Int) + 1) * q := by nlinarith
    rw [renderSection_append m c sample 0 _ _ h0 h1]
    push_cast
    rfl

theorem chunks_concat (m : libm K) (c : camera K) (sample : Int → Int → Int → vec3 K)
    (H N : Int) (hH : 0 ≤ H) (hN : 1 ≤ N) :
    ((List.range N.toNat).map (fun (t : Nat) =>
        renderSection m c sample (row_start (H / N) t) (row_end H N (H / N) t))).flatten =
      renderSection m c sample 0 H := by
  obtain ⟨hq, hlast⟩ := chunk_bounds H N hH hN
  obtain ⟨n, hn⟩ : ∃ n : Nat, N.toNat = n + 1 := ⟨N.toNat - 1, by omega⟩
  have hnN : (n : Int) = N - 1 := by omega
  rw [hn, List.range_succ, List.map_append, List.flatten_append,
    chunks_upto m c sample H N (H / N) hq n (by omega)]
  simp only [List.map_cons, List.map_nil, List.flatten_cons, List.flatten_nil,
    List.append_nil, row_start, row_end]
  rw [if_pos hnN, hnN]
  exact renderSection_append m c sample 0 _ _ (mul_nonneg (by omega) hq) hlast

theorem renderSection_getElem? (m : libm K) (c : camera K) (sample : Int → Int → Int → vec3 K)
    (H i j : Int) (hi0 : 0 ≤ i) (hiW : i < c.image_width) (hj0 : 0 ≤ j) (hjH : j < H)
    (k : Nat) (hk : k < 3) :
    (renderSection m c sample 0 H)[(3 * (j * c.image_width + i)).toNat + k]? =
      (pixel_bytes m c sample i j)[k]? := by
  rw [renderSection_eq]
  have hrow := getElem?_flatMap_range (fun (r : Nat) => row_bytes m c sample (0 + (r : Int)))
    (c.image_width.toNat * 3) (H - 0).toNat (fun _ _ => row_bytes_length m c sample _)
    j.toNat (i.toNat * 3 + k) (by omega)
    (by
      have : i.toNat + 1 ≤ c.image_width.toNat := by omega
      calc i.toNat * 3 + k < (i.toNat + 1) * 3 := by omega
        _ ≤ c.image_width.toNat * 3 := Nat.mul_le_mul_right 3 this)
  have hidx : (3 * (j * c.image_width + i)).toNat + k =
      j.toNat * (c.image_width.toNat * 3) + (i.toNat * 3 + k) := by
    have hj : ((j.toNat : Nat) : Int) = j := Int.toNat_of_nonneg hj0
    have hi : ((i.toNat : Nat) : Int) = i := Int.toNat_of_nonneg hi0
    have hw : ((c.image_width.toNat : Nat) : Int) = c.image_width :=
      Int.toNat_of_nonneg (by omega)
    have h0 : 0 ≤ 3 * (j * c.image_width + i) := by
      have := mul_nonneg hj0 (show 0 ≤ c.image_width by omega)
      omega
    zify
    rw [Int.toNat_of_nonneg h0, hj, hi, hw]
    ring
  rw [hidx, hrow]
  have hj : (0 : Int) + ((j.toNat : Nat) : Int) = j := by omega
  simp only [hj]
  have hpix := getElem?_flatMap_range (fun (a : Nat) => pixel_bytes m c sample (a : Int) j)
    3 c.image_width.toNat (fun _ _ => pixel_bytes_length m c sample _ j) i.toNat k
    (by omega) hk
  have hi : ((i.toNat : Nat) : Int) = i := Int.toNat_of_nonneg hi0
  simp only [hi] at hpix
  exact hpix

/-- C2: for every width, height `H ≥ 1` and worker count `N ≥ 1`, and fixed
per-sample colours, whatever the order `finish_order` in which the `N` workers
store their sections, the bytes the merge step appends to `pixelBuffer` are those
of one sequential `renderSection(world, 0, H)`; each pixel contributes three
bytes, and byte `k` of pixel `(i, j)` sits at offset `3 * (j * W + i) + k`. -/
theorem render_merge_is_sequential (m : libm K) (c : camera K)
    (sample : Int → Int → Int → vec3 K) (N : Int) (finish_order : List Int)
    (pixelBuffer : List Nat)
    (hW : 1 ≤ c.image_width) (hH : 1 ≤ c.image_height) (hN : 1 ≤ N)
    (hperm : finish_order.Perm ((List.range N.toNat).map (fun (t : Nat) => (t : Int)))) :
    ∃ q, rows_per_thread c.image_height N = some q ∧
      merge_sections pixelBuffer (run_workers N (fun t =>
          renderSection m c sample (row_start q t) (row_end c.image_height N q t))
          finish_order) =
        pixelBuffer ++ renderSection m c sample 0 c.image_height ∧
      (renderSection m c sample 0 c.image_height).length =
        (3 * c.image_width * c.image_height).toNat ∧
      ∀ i j, 0 ≤ i → i < c.image_width → 0 ≤ j → j < c.image_height →
        (pixel_bytes m c sample i j).length = 3 ∧
        ∀ k, k < 3 →
          (renderSection m c sample 0 c.image_height)[(3 * (j * c.image_width + i)).toNat + k]? =
            (pixel_bytes m c sample i j)[k]? := by
  refine ⟨c.image_height / N, rows_per_thread_pos_divisor _ _ (by omega) hN, ?_, ?_, ?_⟩
  · rw [merge_sections_eq, run_workers_perm N _ finish_order hperm,
      chunks_concat m c sample c.image_height N (by omega) hN]
  · rw [renderSection_length]
    have hw : ((c.image_width.toNat : Nat) : Int) = c.image_width :=
      Int.toNat_of_nonneg (by omega)
    have hh : (((c.image_height - 0).toNat : Nat) : Int) = c.image_height := by
      rw [Int.toNat_of_nonneg (by omega)]; ring
    have h0 : 0 ≤ 3 * c.image_width * c.image_height := by positivity
    zify
    rw [Int.toNat_of_nonneg h0, hw, hh]
    ring
  · intro i j hi0 hiW hj0 hjH
    exact ⟨pixel_bytes_length m c sample i j,
      fun k hk => renderSection_getElem? m c sample _ i j hi0 hiW hj0 hjH k hk⟩

end Chunks

theorem finish_order_reversed :
    ([1, 0] : List Int).Perm ((List.range (2 : Int).toNat).map (fun (t : Nat) => (t : Int))) :=
  List.Perm.swap 0 1 []

theorem render_merge_is_sequential_witness :
    (1 : Int) ≤ 2 ∧ (1 : Int) ≤ 3 ∧ (1 : Int) ≤ 2 ∧
    ∃ q, rows_per_thread 3 2 = some q ∧
      merge_sections [9] (run_workers 2 (fun t =>
          renderSection (⟨Real.sqrt, Real.tan, Real.pi⟩ : libm ℝ)
            { camera.fresh 2 (1 : ℝ) 1 10 with image_height := 3 } (fun _ _ _ => ⟨1, 1, 1⟩)
            (row_start q t) (row_end 3 2 q t)) [1, 0]) =
        [9] ++ renderSection (⟨Real.sqrt, Real.tan, Real.pi⟩ : libm ℝ)
          { camera.fresh 2 (1 : ℝ) 1 10 with image_height := 3 } (fun _ _ _ => ⟨1, 1, 1⟩) 0 3 ∧
      (renderSection (⟨Real.sqrt, Real.tan, Real.pi⟩ : libm ℝ)
          { camera.fresh 2 (1 : ℝ) 1 10 with image_height := 3 }
          (fun _ _ _ => ⟨1, 1, 1⟩) 0 3).length = (3 * 2 * 3 : Int).toNat ∧
      ∀ i j : Int, 0 ≤ i → i < 2 → 0 ≤ j → j < 3 →
        (pixel_bytes (⟨Real.sqrt, Real.tan, Real.pi⟩ : libm ℝ)
          { camera.fresh 2 (1 : ℝ) 1 10 with image_height := 3 }
          (fun _ _ _ => ⟨1, 1, 1⟩) i j).length = 3 ∧
        ∀ k, k < 3 →
          (renderSection (⟨Real.sqrt, Real.tan, Real.pi⟩ : libm ℝ)
            { camera.fresh 2 (1 : ℝ) 1 10 with image_height := 3 }
            (fun _ _ _ => ⟨1, 1, 1⟩) 0 3)[(3 * (j * 2 + i)).toNat + k]? =
            (pixel_bytes (⟨Real.sqrt, Real.tan, Real.pi⟩ : libm ℝ)
              { camera.fresh 2 (1 : ℝ) 1 10 with image_height := 3 }
              (fun _ _ _ => ⟨1, 1, 1⟩) i j)[k]? :=
  ⟨by decide, by decide, by decide,
    render_merge_is_sequential (⟨Real.sqrt, Real.tan, Real.pi⟩ : libm ℝ)
      { camera.fresh 2 (1 : ℝ) 1 10 with image_height := 3 } (fun _ _ _ => ⟨1, 1, 1⟩) 2 [1, 0] [9]
      (by decide) (by decide) (by decide) finish_order_reversed⟩

/-! ### camera::initialize and camera::render -/

section Init

variable {K : Type} [LinearOrderedField K] [FloorRing K]

theorem camera_init_image_height (m : libm K) (c : camera K) :
    (camera_init m c).image_height =
      if double_to_int ((c.image_width : K) / c.aspect_ratio) < 1 then 1
      else double_to_int ((c.image_width : K) / c.aspect_ratio) := rfl

theorem camera_init_image_height_pos (m : libm K) (c : camera K) :
    1 ≤ (camera_init m c).image_height := by
  rw [camera_init_image_height]
  split_ifs with h
  · exact le_refl 1
  · omega

theorem camera_init_params (m : libm K) (c : camera K) :
    (camera_init m c).image_width = c.image_width ∧
      (camera_init m c).aspect_ratio = c.aspect_ratio ∧
      (camera_init m c).samples_per_pixel = c.samples_per_pixel ∧
      (camera_init m c).max_depth = c.max_depth ∧
      (camera_init m c).lookfrom = c.lookfrom ∧
      (camera_init m c).lookat = c.lookat ∧
      (camera_init m c).pixelBuffer = c.pixelBuffer :=
  ⟨rfl, rfl, rfl, rfl, rfl, rfl, rfl⟩

theorem render_eq (m : libm K) (c : camera K) (hardware_concurrency : Nat)
    (finish_order : List Int) (sample : Int → Int → Int → vec3 K) (opened : Bool)
    (hN : 1 ≤ num_threads hardware_concurrency)
    (hperm : finish_order.Perm
      ((List.range (num_threads hardware_concurrency).toNat).map (fun (t : Nat) => (t : Int)))) :
    render m c hardware_concurrency finish_order sample opened =
      some ({ camera_init m c with
                pixelBuffer := c.pixelBuffer ++
                  renderSection m (camera_init m c) sample 0 (camera_init m c).image_height },
        saveBMP opened
          (c.pixelBuffer ++ renderSection m (camera_init m c) sample 0 (camera_init m c).image_height)
          c.image_width (camera_init m c).image_height) := by
  have hH := camera_init_image_height_pos m c
  unfold render
  simp only []
  rw [rows_per_thread_pos_divisor _ _ (by omega) hN]
  simp only []
  rw [if_neg (by omega), merge_sections_eq, run_workers_perm _ _ finish_order hperm,
    chunks_concat m (camera_init m c) sample _ _ (by omega) hN]
  rfl

theorem render_undefined (m : libm K) (c : camera K) (hardware_concurrency : Nat)
    (finish_order : List Int) (sample : Int → Int → Int → vec3 K) (opened : Bool)
    (hN : num_threads hardware_concurrency = 0) :
    render m c hardware_concurrency finish_order sample opened = none := by
  unfold render
  simp [rows_per_thread, hN]

end Init

/-! ### Bitmap::saveBMP -/

section Encoding

variable {K : Type} [LinearOrderedField K] [FloorRing K]

theorem clamp_intensity (x : K) :
    (intensity : interval K).clamp x = Max.max 0 (Min.min x (999 / 1000)) := by
  have h999 : (0 : K) < 999 / 1000 := by norm_num
  unfold interval.clamp intensity
  dsimp only
  split_ifs with h1 h2
  · rw [max_eq_left]
    exact le_trans (min_le_left _ _) h1.le
  · rw [min_eq_right h2.le, max_eq_right h999.le]
  · rw [min_eq_left (not_lt.1 h2), max_eq_right (not_lt.1 h1)]

theorem clamp_intensity_range (x : K) :
    0 ≤ (intensity : interval K).clamp x ∧ (intensity : interval K).clamp x ≤ 999 / 1000 := by
  rw [clamp_intensity]
  refine ⟨le_max_left _ _, max_le (by norm_num) (min_le_right _ _)⟩

theorem double_to_int_scaled (y : K) (h0 : 0 ≤ y) (h1 : y ≤ 999 / 1000) :
    0 ≤ double_to_int (256 * y) ∧ double_to_int (256 * y) ≤ 255 := by
  have hy : (0 : K) ≤ 256 * y := by positivity
  unfold double_to_int
  rw [if_pos hy]
  refine ⟨Int.floor_nonneg.2 hy, ?_⟩
  have hlt : ⌊256 * y⌋ < 256 := by
    rw [Int.floor_lt]
    push_cast
    linarith
  omega

theorem enc_eq_clamp (m : libm K) (c : K) :
    enc m c = double_to_int (256 * (intensity : interval K).clamp (linear_to_gamma m c)) := by
  rw [clamp_intensity]
  rfl

theorem enc_range (m : libm K) (c : K) : 0 ≤ enc m c ∧ enc m c ≤ 255 := by
  rw [enc_eq_clamp]
  obtain ⟨h0, h1⟩ := clamp_intensity_range (linear_to_gamma m c)
  exact double_to_int_scaled _ h0 h1

theorem to_uint8_enc (m : libm K) (c : K) : to_uint8 (enc m c) = (enc m c).toNat := by
  obtain ⟨h0, h1⟩ := enc_range m c
  unfold to_uint8
  rw [Int.emod_eq_of_lt h0 (by omega)]

/-- C7: `write_color` appends exactly three bytes, `enc(b)`, `enc(g)`, `enc(r)` in
this order, after the bytes already in the buffer, which it leaves unchanged;
every `enc(c)` lies in `0..255`, `enc(c) = 0` for `c ≤ 0` and `enc(c) = 255` for
`c ≥ 1` (the square root of a number `≥ 1` being `≥ 1`). -/
theorem write_color_bytes (m : libm K) (r g b : K) (sect : List Nat)
    (hsqrt : ∀ c : K, 1 ≤ c → 1 ≤ m.sqrt c) :
    write_color m ⟨r, g, b⟩ sect =
        sect ++ [(enc m b).toNat, (enc m g).toNat, (enc m r).toNat] ∧
      (write_color m ⟨r, g, b⟩ sect).length = sect.length + 3 ∧
      (∀ c : K, 0 ≤ enc m c ∧ enc m c ≤ 255) ∧
      (∀ c : K, c ≤ 0 → enc m c = 0) ∧
      (∀ c : K, 1 ≤ c → enc m c = 255) := by
  have hw : write_color m ⟨r, g, b⟩ sect =
      sect ++ [(enc m b).toNat, (enc m g).toNat, (enc m r).toNat] := by
    rw [← to_uint8_enc, ← to_uint8_enc, ← to_uint8_enc, enc_eq_clamp, enc_eq_clamp,
      enc_eq_clamp]
    simp [write_color]
  refine ⟨hw, by rw [hw]; simp, enc_range m, ?_, ?_⟩
  · intro c hc
    unfold enc
    rw [if_neg (not_lt.2 hc)]
    have h999 : (0 : K) ≤ 999 / 1000 := by norm_num
    rw [min_eq_left h999, max_self]
    simp [double_to_int]
  · intro c hc
    unfold enc
    rw [if_pos (lt_of_lt_of_le one_pos hc)]
    have h1 := hsqrt c hc
    have hmin : Min.min (m.sqrt c) (999 / 1000 : K) = 999 / 1000 :=
      min_eq_right (le_trans (by norm_num) h1)
    rw [hmin, max_eq_right (by norm_num)]
    unfold double_to_int
    rw [if_pos (by norm_num)]
    rw [Int.floor_eq_iff]
    constructor <;> norm_num

end Encoding

theorem write_color_bytes_witness :
    (∀ c : ℝ, 1 ≤ c → 1 ≤ Real.sqrt c) ∧
    (write_color (⟨Real.sqrt, Real.tan, Real.pi⟩ : libm ℝ) ⟨2, 1 / 4, -1⟩ [7, 8] =
        [7, 8] ++ [(enc (⟨Real.sqrt, Real.tan, Real.pi⟩ : libm ℝ) (-1)).toNat,
          (enc (⟨Real.sqrt, Real.tan, Real.pi⟩ : libm ℝ) (1 / 4)).toNat,
          (enc (⟨Real.sqrt, Real.tan, Real.pi⟩ : libm ℝ) 2).toNat] ∧
      (write_color (⟨Real.sqrt, Real.tan, Real.pi⟩ : libm ℝ) ⟨2, 1 / 4, -1⟩ [7, 8]).length =
        [7, 8].length + 3 ∧
      (∀ c : ℝ, 0 ≤ enc (⟨Real.sqrt, Real.tan, Real.pi⟩ : libm ℝ) c ∧
        enc (⟨Real.sqrt, Real.tan, Real.pi⟩ : libm ℝ) c ≤ 255) ∧
      (∀ c : ℝ, c ≤ 0 → enc (⟨Real.sqrt, Real.tan, Real.pi⟩ : libm ℝ) c = 0) ∧
      (∀ c : ℝ, 1 ≤ c → enc (⟨Real.sqrt, Real.tan, Real.pi⟩ : libm ℝ) c = 255)) :=
  ⟨fun _ hc => Real.one_le_sqrt.2 hc,
    write_color_bytes (⟨Real.sqrt, Real.tan, Real.pi⟩ : libm ℝ) 2 (1 / 4) (-1) [7, 8]
      (fun _ hc => Real.one_le_sqrt.2 hc)⟩

/-! ### Claims about camera::initialize and camera::render -/

theorem num_threads_one : num_threads 1 = 1 := by decide

theorem finish_order_one :
    ([0] : List Int).Perm ((List.range (num_threads 1).toNat).map (fun (t : Nat) => (t : Int))) := by
  rw [num_threads_one]
  exact List.Perm.refl _

theorem double_to_int_of_nonneg {K : Type} [LinearOrderedField K] [FloorRing K] (x : K)
    (hx : 0 ≤ x) : double_to_int x = ⌊x⌋ := by
  unfold double_to_int
  rw [if_pos hx]

theorem camera_init_height_two (m : libm ℝ) (c : camera ℝ) (hw : c.image_width = 2)
    (ha : c.aspect_ratio = 1) : (camera_init m c).image_height = 2 := by
  rw [camera_init_image_height]
  have h : double_to_int (((2 : Int) : ℝ) / 1) = 2 := by
    rw [double_to_int_of_nonneg _ (by norm_num), Int.floor_eq_iff]
    constructor <;> norm_num
  rw [hw, ha, h]
  rfl

/-- C3: when the hardware-concurrency query reports 0, `num_threads` is 0, the
division `image_height / num_threads` is a division by zero for every image
height, and `render` has no defined result. -/
theorem render_zero_concurrency :
    num_threads 0 = 0 ∧
      (∀ H : Int, rows_per_thread H (num_threads 0) = none) ∧
      (∀ (m : libm ℚ) (c : camera ℚ) (finish_order : List Int)
        (sample : Int → Int → Int → vec3 ℚ) (opened : Bool),
        render m c 0 finish_order sample opened = none) := by
  have h0 : num_threads 0 = 0 := by decide
  refine ⟨h0, ?_, ?_⟩
  · intro H
    rw [h0]
    rfl
  · intro m c finish_order sample opened
    exact render_undefined m c 0 finish_order sample opened h0

theorem render_twice {K : Type} [LinearOrderedField K] [FloorRing K]
    (m : libm K) (c : camera K) (hardware_concurrency : Nat) (finish_order : List Int)
    (s₁ s₂ : Int → Int → Int → vec3 K) (opened : Bool)
    (hN : 1 ≤ num_threads hardware_concurrency)
    (hperm : finish_order.Perm
      ((List.range (num_threads hardware_concurrency).toNat).map (fun (t : Nat) => (t : Int)))) :
    ∃ (c₁ c₂ : camera K) (o₁ o₂ : Except String BMPFile) (image₁ image₂ : List Nat),
      render m c hardware_concurrency finish_order s₁ opened = some (c₁, o₁) ∧
      render m c₁ hardware_concurrency finish_order s₂ opened = some (c₂, o₂) ∧
      c₂.image_width = c.image_width ∧
      c₂.image_height = (camera_init m c).image_height ∧
      image₁.length = ((camera_init m c).image_height - 0).toNat * (c.image_width.toNat * 3) ∧
      image₂.length = ((camera_init m c).image_height - 0).toNat * (c.image_width.toNat * 3) ∧
      c₁.pixelBuffer = c.pixelBuffer ++ image₁ ∧
      c₂.pixelBuffer = (c.pixelBuffer ++ image₁) ++ image₂ := by
  obtain ⟨c₁, hc₁⟩ : ∃ c₁ : camera K, c₁ = { camera_init m c with
      pixelBuffer := c.pixelBuffer ++
        renderSection m (camera_init m c) s₁ 0 (camera_init m c).image_height } := ⟨_, rfl⟩
  have hr₁ := render_eq m c hardware_concurrency finish_order s₁ opened hN hperm
  rw [← hc₁] at hr₁
  have hr₂ := render_eq m c₁ hardware_concurrency finish_order s₂ opened hN hperm
  have hw₁ : c₁.image_width = c.image_width := by rw [hc₁]; rfl
  have ha₁ : c₁.aspect_ratio = c.aspect_ratio := by rw [hc₁]; rfl
  have hb₁ : c₁.pixelBuffer = c.pixelBuffer ++
      renderSection m (camera_init m c) s₁ 0 (camera_init m c).image_height := by rw [hc₁]
  have hH : (camera_init m c₁).image_height = (camera_init m c).image_height := by
    rw [camera_init_image_height, camera_init_image_height, hw₁, ha₁]
  have hW : (camera_init m c₁).image_width = c.image_width := hw₁
  refine ⟨c₁, _, _, _, _, renderSection m (camera_init m c₁) s₂ 0 (camera_init m c₁).image_height,
    hr₁, hr₂, hw₁, hH, ?_, ?_, hb₁, ?_⟩
  · rw [renderSection_length]; rfl
  · rw [renderSection_length, hH, hW]
  · show c₁.pixelBuffer ++ _ = _
    rw [hb₁]

/-- C6: a second `render` on the same camera object appends its image after the
first call's: for a 2 x 2 image (12 bytes) `pixelBuffer` holds 12 bytes after
the first call and 24 after the second, the first 12 being the first call's. -/
theorem render_twice_accumulates :
    ∃ (c₁ c₂ : camera ℝ) (o₁ o₂ : Except String BMPFile),
      render ⟨Real.sqrt, Real.tan, Real.pi⟩ (camera.fresh 2 (1 : ℝ) 1 10) 1 [0]
          (fun _ _ _ => ⟨0, 0, 0⟩) true = some (c₁, o₁) ∧
      render ⟨Real.sqrt, Real.tan, Real.pi⟩ c₁ 1 [0] (fun _ _ _ => ⟨1, 1, 1⟩) true =
          some (c₂, o₂) ∧
      3 * c₂.image_width * c₂.image_height = 12 ∧
      c₁.pixelBuffer.length = 12 ∧
      c₂.pixelBuffer.length = 24 ∧
      c₂.pixelBuffer.take 12 = c₁.pixelBuffer := by
  have hH := camera_init_height_two ⟨Real.sqrt, Real.tan, Real.pi⟩
    (camera.fresh 2 (1 : ℝ) 1 10) rfl rfl
  obtain ⟨c₁, c₂, o₁, o₂, image₁, image₂, h₁, h₂, hw, hh, hl₁, hl₂, hb₁, hb₂⟩ :=
    render_twice ⟨Real.sqrt, Real.tan, Real.pi⟩ (camera.fresh 2 (1 : ℝ) 1 10) 1 [0]
      (fun _ _ _ => ⟨0, 0, 0⟩) (fun _ _ _ => ⟨1, 1, 1⟩) true
      (by rw [num_threads_one]) finish_order_one
  rw [hH] at hl₁ hl₂ hh
  have e₁ : image₁.length = 12 := hl₁
  have e₂ : image₂.length = 12 := hl₂
  have e₀ : (camera.fresh 2 (1 : ℝ) 1 10).pixelBuffer = [] := rfl
  rw [e₀, List.nil_append] at hb₁ hb₂
  refine ⟨c₁, c₂, o₁, o₂, h₁, h₂, ?_, ?_, ?_, ?_⟩
  · rw [hw, hh]; rfl
  · rw [hb₁, e₁]
  · rw [hb₂, List.length_append, e₁, e₂]
  · rw [hb₂, hb₁, List.take_append_of_le_length (by rw [e₁]),
      List.take_of_length_le (by rw [e₁])]

/-! ### camera::ray_color -/

section RayColorProofs

variable {K : Type} [LinearOrderedField K] [FloorRing K] {M G : Type}

theorem vec3_mul_def (a b : vec3 K) : a * b = ⟨a.x * b.x, a.y * b.y, a.z * b.z⟩ := rfl

theorem vec3_mul_assoc (a b c : vec3 K) : a * b * c = a * (b * c) := by
  simp only [vec3_mul_def, mul_assoc]

theorem vec3_one_mul (a : vec3 K) : (⟨1, 1, 1⟩ : vec3 K) * a = a := by
  simp only [vec3_mul_def, one_mul]

theorem vec3_mul_zero (a : vec3 K) : a * (⟨0, 0, 0⟩ : vec3 K) = ⟨0, 0, 0⟩ := by
  simp only [vec3_mul_def, mul_zero]

theorem ray_color_nonpos (m : libm K) (world : hittable K M G) (r : ray K) (depth : Int)
    (g : G) (h : depth ≤ 0) : ray_color m world r depth g = (⟨0, 0, 0⟩, g, 0) := by
  rw [ray_color, if_pos h]

theorem ray_color_succ (m : libm K) (world : hittable K M G) (r : ray K) (k : Nat) (g : G) :
    ray_color m world r ((k : Int) + 1) g =
      match world.hit r (1 / 1000) with
      | some rec =>
        match world.scatter rec.mat r rec g with
        | (some (attenuation, scattered), g') =>
          (attenuation * (ray_color m world scattered k g').1,
            (ray_color m world scattered k g').2.1,
            (ray_color m world scattered k g').2.2 + 1)
        | (none, g') => (⟨0, 0, 0⟩, g', 1)
      | none => (background_gradient m r.direction, g, 1) := by
  rw [ray_color, if_neg (by omega)]
  have e : (k : Int) + 1 - 1 = k := by omega
  simp only [e]
  rfl

theorem attenuation_product_eq (m : libm K) (world : hittable K M G) (k : Nat) :
    ∀ (throughput : vec3 K) (r : ray K) (g : G) (queries : Nat),
      attenuation_product m world k throughput r g queries =
        (throughput * (ray_color m world r k g).1, (ray_color m world r k g).2.1,
          queries + (ray_color m world r k g).2.2) := by
  induction k with
  | zero =>
    intro T r g n
    rw [show ((0 : Nat) : Int) = 0 from rfl, ray_color_nonpos m world r 0 g (le_refl 0)]
    simp only [attenuation_product, vec3_mul_zero, Nat.add_zero]
  | succ k ih =>
    intro T r g n
    rw [show ((k + 1 : Nat) : Int) = (k : Int) + 1 from by push_cast; rfl, ray_color_succ]
    unfold attenuation_product
    cases hhit : world.hit r (1 / 1000) with
    | none => simp only []
    | some rec =>
      simp only []
      rcases hsc : world.scatter rec.mat r rec g with ⟨_ | ⟨attenuation, scattered⟩, g'⟩
      · simp only [vec3_mul_zero]
      · simp only [ih, vec3_mul_assoc, Nat.add_assoc, Nat.add_comm 1]

theorem ray_color_queries_le (m : libm K) (world : hittable K M G) (k : Nat) :
    ∀ (r : ray K) (g : G), (ray_color m world r k g).2.2 ≤ k := by
  induction k with
  | zero =>
    intro r g
    rw [show ((0 : Nat) : Int) = 0 from rfl, ray_color_nonpos m world r 0 g (le_refl 0)]
  | succ k ih =>
    intro r g
    rw [show ((k + 1 : Nat) : Int) = (k : Int) + 1 from by push_cast; rfl, ray_color_succ]
    cases hhit : world.hit r (1 / 1000) with
    | none => simp only []; omega
    | some rec =>
      simp only []
      rcases hsc : world.scatter rec.mat r rec g with ⟨_ | ⟨attenuation, scattered⟩, g'⟩
      · simp only []; omega
      · simp only []
        have := ih scattered g'
        omega

/-- C9: for every ray, depth and world, `ray_color` (a total function) makes at
most `max(depth, 0)` geometry queries and equals the iterative
attenuation-product evaluation, in colour, generator state and number of
queries; for every depth `≤ 0` (that is `-n`, `n` a natural number) the result is
exactly zero radiance, with no query made and no random number drawn. -/
theorem ray_color_eq_iterative (m : libm K) (world : hittable K M G) (r : ray K)
    (depth : Int) (g : G) :
    ray_color m world r depth g = ray_color_iterative m world r depth g ∧
      (ray_color m world r depth g).2.2 ≤ (Max.max depth 0).toNat ∧
      ∀ n : Nat, ray_color m world r (-(n : Int)) g = (⟨0, 0, 0⟩, g, 0) := by
  have hzero : ∀ n : Nat, ray_color m world r (-(n : Int)) g = (⟨0, 0, 0⟩, g, 0) :=
    fun n => ray_color_nonpos m world r _ g (by omega)
  rcases le_or_lt depth 0 with h | h
  · refine ⟨?_, ?_, hzero⟩
    · rw [ray_color_nonpos m world r depth g h]
      unfold ray_color_iterative
      rw [Int.toNat_eq_zero.2 h]
      rfl
    · rw [ray_color_nonpos m world r depth g h]
      exact Nat.zero_le _
  · obtain ⟨k, hk⟩ : ∃ k : Nat, depth = (k : Int) := ⟨depth.toNat, by omega⟩
    subst hk
    refine ⟨?_, ?_, hzero⟩
    · unfold ray_color_iterative
      rw [Int.toNat_ofNat, attenuation_product_eq, vec3_one_mul, Nat.zero_add]
    · have := ray_color_queries_le m world k r g
      rw [max_eq_left (by omega), Int.toNat_ofNat]
      exact this

end RayColorProofs

section EmptyScene

variable {K : Type} [LinearOrderedField K] [FloorRing K] {M G : Type}

theorem vec3_smul_def (t : K) (a : vec3 K) : t * a = (⟨t * a.x, t * a.y, t * a.z⟩ : vec3 K) := rfl

theorem vec3_add_def (a b : vec3 K) : a + b = ⟨a.x + b.x, a.y + b.y, a.z + b.z⟩ := rfl

theorem unit_vector_y (m : libm K) (d : vec3 K) :
    (unit_vector m d).y = (1 / m.sqrt (d.x * d.x + d.y * d.y + d.z * d.z)) * d.y := rfl

theorem unit_vector_y_range (m : libm K) (d : vec3 K)
    (hsqrt : ∀ x : K, 0 ≤ x → 0 ≤ m.sqrt x ∧ m.sqrt x * m.sqrt x = x)
    (hdir : d ≠ ⟨0, 0, 0⟩) :
    -1 ≤ (unit_vector m d).y ∧ (unit_vector m d).y ≤ 1 := by
  have hlen : 0 < d.x * d.x + d.y * d.y + d.z * d.z := by
    have hx := mul_self_nonneg d.x
    have hy := mul_self_nonneg d.y
    have hz := mul_self_nonneg d.z
    rcases lt_or_eq_of_le (add_nonneg (add_nonneg hx hy) hz) with h | h
    · exact h
    · exfalso
      apply hdir
      have hx0 : d.x * d.x = 0 := by linarith
      have hy0 : d.y * d.y = 0 := by linarith
      have hz0 : d.z * d.z = 0 := by linarith
      cases d with
      | mk x y z =>
        have ex : x = 0 := mul_self_eq_zero.1 hx0
        have ey : y = 0 := mul_self_eq_zero.1 hy0
        have ez : z = 0 := mul_self_eq_zero.1 hz0
        rw [ex, ey, ez]
  obtain ⟨hs0, hss⟩ := hsqrt _ hlen.le
  obtain ⟨s, hs⟩ : ∃ s, s = m.sqrt (d.x * d.x + d.y * d.y + d.z * d.z) := ⟨_, rfl⟩
  rw [unit_vector_y, ← hs]
  rw [← hs] at hs0 hss
  have hspos : 0 < s := by
    rcases lt_or_eq_of_le hs0 with h | h
    · exact h
    · rw [← h] at hss; simp at hss; linarith
  have hy2 : d.y * d.y ≤ s * s := by
    have hx := mul_self_nonneg d.x
    have hz := mul_self_nonneg d.z
    linarith
  have habs : -s ≤ d.y ∧ d.y ≤ s :=
    abs_le_of_sq_le_sq' (by rw [sq, sq]; exact hy2) hs0
  rw [one_div, inv_mul_eq_div]
  constructor
  · rw [le_div_iff₀ hspos]; linarith
  · rw [div_le_iff₀ hspos]; linarith

/-- C10, as the code has it: in a scene with no geometry, for every max depth
`≥ 1`, `ray_color` returns for every ray with non-zero direction `d` the
background gradient `(1-a)*(1,1,1) + a*(0.5,0.7,1.0)`, `a = 0.5*(normalize(d).y
+ 1)` in `[0,1]`, making one geometry query and drawing no random number; the
value is the same for every ray of that direction, every depth `≥ 1` and every
state of the random generator. -/
theorem ray_color_empty_scene (m : libm K) (world : hittable K M G) (r : ray K)
    (max_depth : Int) (g : G)
    (hsqrt : ∀ x : K, 0 ≤ x → 0 ≤ m.sqrt x ∧ m.sqrt x * m.sqrt x = x)
    (hempty : ∀ (r' : ray K) (t : K), world.hit r' t = none)
    (hdepth : 1 ≤ max_depth)
    (hdir : r.direction ≠ ⟨0, 0, 0⟩) :
    ray_color m world r max_depth g = (background_gradient m r.direction, g, 1) ∧
      (∃ a : K, a = (1 / 2) * ((unit_vector m r.direction).y + 1) ∧ 0 ≤ a ∧ a ≤ 1 ∧
        background_gradient m r.direction =
          (1 - a) * (⟨1, 1, 1⟩ : vec3 K) + a * (⟨1 / 2, 7 / 10, 1⟩ : vec3 K)) ∧
      (∀ (r' : ray K) (depth' : Int) (g' : G), r'.direction = r.direction → 1 ≤ depth' →
        (ray_color m world r' depth' g').1 = (ray_color m world r max_depth g).1) := by
  have key : ∀ (r' : ray K) (depth' : Int) (g' : G), 1 ≤ depth' →
      ray_color m world r' depth' g' = (background_gradient m r'.direction, g', 1) := by
    intro r' depth' g' hd
    obtain ⟨k, hk⟩ : ∃ k : Nat, depth' = (k : Int) + 1 := ⟨(depth' - 1).toNat, by omega⟩
    rw [hk, ray_color_succ, hempty]
  obtain ⟨hlo, hhi⟩ := unit_vector_y_range m r.direction hsqrt hdir
  refine ⟨key r max_depth g hdepth, ⟨_, rfl, by linarith, by linarith, rfl⟩, ?_⟩
  intro r' depth' g' hr' hd'
  rw [key r' depth' g' hd', key r max_depth g hdepth, hr']

end EmptyScene

theorem real_sqrt_exact :
    ∀ x : ℝ, 0 ≤ x → 0 ≤ Real.sqrt x ∧ Real.sqrt x * Real.sqrt x = x :=
  fun x hx => ⟨Real.sqrt_nonneg x, Real.mul_self_sqrt hx⟩

theorem up_ne_zero : (⟨0, 1, 0⟩ : vec3 ℝ) ≠ ⟨0, 0, 0⟩ := by
  intro h
  have := congrArg vec3.y h
  norm_num at this

theorem ray_color_empty_scene_witness :
    (1 : Int) ≤ 1 ∧
    ray_color (⟨Real.sqrt, Real.tan, Real.pi⟩ : libm ℝ) empty_world
        ⟨⟨0, 0, 0⟩, ⟨0, 1, 0⟩⟩ 1 () =
      (background_gradient (⟨Real.sqrt, Real.tan, Real.pi⟩ : libm ℝ) ⟨0, 1, 0⟩, (), 1) ∧
      (∃ a : ℝ, a = (1 / 2) *
          ((unit_vector (⟨Real.sqrt, Real.tan, Real.pi⟩ : libm ℝ) ⟨0, 1, 0⟩).y + 1) ∧
        0 ≤ a ∧ a ≤ 1 ∧
        background_gradient (⟨Real.sqrt, Real.tan, Real.pi⟩ : libm ℝ) ⟨0, 1, 0⟩ =
          (1 - a) * (⟨1, 1, 1⟩ : vec3 ℝ) + a * (⟨1 / 2, 7 / 10, 1⟩ : vec3 ℝ)) ∧
      (∀ (r' : ray ℝ) (depth' : Int) (g' : Unit), r'.direction = ⟨0, 1, 0⟩ → 1 ≤ depth' →
        (ray_color (⟨Real.sqrt, Real.tan, Real.pi⟩ : libm ℝ) empty_world r' depth' g').1 =
          (ray_color (⟨Real.sqrt, Real.tan, Real.pi⟩ : libm ℝ) empty_world
            ⟨⟨0, 0, 0⟩, ⟨0, 1, 0⟩⟩ 1 ()).1) :=
  ⟨le_refl 1,
    ray_color_empty_scene (⟨Real.sqrt, Real.tan, Real.pi⟩ : libm ℝ) empty_world
      ⟨⟨0, 0, 0⟩, ⟨0, 1, 0⟩⟩ 1 () real_sqrt_exact (fun _ _ => rfl) (le_refl 1) up_ne_zero⟩

/-- C10, counterexample: with max depth 0, a valid setting, `ray_color` returns
zero radiance for the ray from the origin in direction `(0, 1, 0)` in the empty
scene, whereas the background gradient of that direction is `(0.5, 0.7, 1.0)`. -/
theorem ray_color_depth_zero_not_background :
    (0 : Int) ≥ 0 ∧
    (ray_color (⟨Real.sqrt, Real.tan, Real.pi⟩ : libm ℝ) empty_world
        ⟨⟨0, 0, 0⟩, ⟨0, 1, 0⟩⟩ 0 ()).1 = ⟨0, 0, 0⟩ ∧
      background_gradient (⟨Real.sqrt, Real.tan, Real.pi⟩ : libm ℝ) ⟨0, 1, 0⟩ =
        ⟨1 / 2, 7 / 10, 1⟩ ∧
      (ray_color (⟨Real.sqrt, Real.tan, Real.pi⟩ : libm ℝ) empty_world
        ⟨⟨0, 0, 0⟩, ⟨0, 1, 0⟩⟩ 0 ()).1 ≠
        background_gradient (⟨Real.sqrt, Real.tan, Real.pi⟩ : libm ℝ) ⟨0, 1, 0⟩ := by
  have h0 : (ray_color (⟨Real.sqrt, Real.tan, Real.pi⟩ : libm ℝ) empty_world
      ⟨⟨0, 0, 0⟩, ⟨0, 1, 0⟩⟩ 0 ()).1 = ⟨0, 0, 0⟩ := by
    rw [ray_color_nonpos _ _ _ 0 () (le_refl 0)]
  have hb : background_gradient (⟨Real.sqrt, Real.tan, Real.pi⟩ : libm ℝ) ⟨0, 1, 0⟩ =
      ⟨1 / 2, 7 / 10, 1⟩ := by
    unfold background_gradient
    simp only [unit_vector_y, vec3_smul_def, vec3_add_def]
    norm_num
  refine ⟨le_refl 0, h0, hb, ?_⟩
  rw [h0, hb]
  intro h
  have := congrArg vec3.z h
  norm_num at this

end RayTracerApp
